import Mathlib

set_option maxRecDepth 40000

/-!
Verification of the alignment pipeline in `src/pipes/alignment.py`
(class `AlignmentPipeline`).

The pipeline is embedded shallowly:

* Python strings are modelled as `String` / `List Char`; the string
  operations used by the code (`str.replace`, `re.sub(r'>\s*<', '>\n<', s)`,
  `str.strip`, `str.lower`, substring tests with `in`) are translated into
  executable structural recursions over `List Char`.
* `xml.etree.ElementTree` trees built by `_generate_xml` are two-level
  structures (a `linkGrp` root with `link` children); `tostring` with
  `encoding='unicode'` renders attributes in insertion order, double-quoted,
  escaping attribute values exactly as CPython's `_escape_attrib` does
  (`&`, `<`, `>`, `"`, CR, LF, TAB, in that order).
* `_rearrange_link_attributes` parses the string it is given, reorders the
  attributes of every `link` element and re-serializes.  Since the only
  string it ever receives is the serialization of the tree just built, the
  parse/serialize round trip is the identity on the tree, and the function
  is embedded as the tree-level attribute reordering followed by
  serialization and the `.replace(' />', '/>')` cleanup.
* The external `Bertalign` aligner is an oracle parameter: a function from
  the two texts and the two language hints to a list of index-group pairs.
* The filesystem is modelled by the ordered list of `(file name, content)`
  writes performed by `_generate_xml`; the final content of a file is the
  last write to its name (`open(..., 'w')` truncates).
-/

/-! ## Character-list string primitives -/

/-- Python `s.replace(t, rep)` for a single-character needle `t`:
every occurrence of `t` in `s` is replaced by `rep`. -/
def replChar (t : Char) (rep : List Char) : List Char → List Char
  | [] => []
  | c :: s => (if c = t then rep else [c]) ++ replChar t rep s

/-- Does `h` start with `n`?  (Helper for the Python substring test.) -/
def startsWithL : List Char → List Char → Bool
  | [], _ => true
  | _ :: _, [] => false
  | a :: as, b :: bs => a = b && startsWithL as bs

/-- Python `n in h` (substring containment). -/
def containsSub (needle : List Char) : List Char → Bool
  | [] => startsWithL needle []
  | c :: t => startsWithL needle (c :: t) || containsSub needle t

/-- Python `\s` character class (whitespace as matched by `re`). -/
def isPySpace (c : Char) : Bool :=
  c = ' ' || c = '\t' || c = '\n' || c = '\r' || c = '\x0b' || c = '\x0c'

/-- Worker for `re.sub(r'>\s*<', '>\n<', s)`.  The first argument is `none`
in the normal scanning state and `some ws` (with `ws` the reversed buffered
whitespace) right after a `>` that may start a match. -/
def collapseA : Option (List Char) → List Char → List Char
  | none, [] => []
  | some ws, [] => ws.reverse
  | none, c :: rest =>
      if c = '>' then '>' :: collapseA (some []) rest
      else c :: collapseA none rest
  | some ws, c :: rest =>
      if isPySpace c then collapseA (some (c :: ws)) rest
      else if c = '<' then '\n' :: '<' :: collapseA none rest
      else if c = '>' then ws.reverse ++ '>' :: collapseA (some []) rest
      else ws.reverse ++ c :: collapseA none rest

/-- `re.sub(r'>\s*<', '>\n<', s)`: every run of whitespace between a `>`
and a `<` (possibly empty) becomes a single newline. -/
def collapseTags (s : List Char) : List Char := collapseA none s

/-- Python `s.strip()`: remove leading and trailing whitespace. -/
def pyStrip (s : List Char) : List Char :=
  ((s.dropWhile isPySpace).reverse.dropWhile isPySpace).reverse

/-- Python `s.replace(' />', '/>')` as used on serialized XML: scan left to
right, replace every (non-overlapping) occurrence of `" />"` by `"/>"` and
continue after the replacement. -/
def fixSelfClose : List Char → List Char
  | [] => []
  | [c] => [c]
  | [c, d] => [c, d]
  | c :: d :: e :: rest =>
    if c = ' ' ∧ d = '/' ∧ e = '>' then '/' :: '>' :: fixSelfClose rest
    else c :: fixSelfClose (d :: e :: rest)

/-- ASCII-faithful Python `str.lower()` (inputs are language/register tags). -/
def lowerStr (s : String) : String := String.mk (s.data.map Char.toLower)

/-- Lexicographic comparison of code-point lists, i.e. Python `str` `<`. -/
def listLt : List Char → List Char → Bool
  | [], [] => false
  | [], _ :: _ => true
  | _ :: _, [] => false
  | a :: as, b :: bs => decide (a < b) || (a = b && listLt as bs)

/-- Python string comparison `a < b`. -/
def strLt (a b : String) : Bool := listLt a.data b.data

/-- Python `s.split(sep)` for a single-character separator (spec-side helper
used to parse an `xtargets` value into its `doc:idx` tokens). -/
def splitCh (sep : Char) : List Char → List (List Char)
  | [] => [[]]
  | c :: t =>
    match splitCh sep t with
    | [] => if c = sep then [[], []] else [[c]]
    | h :: rs => if c = sep then [] :: h :: rs else (c :: h) :: rs

/-! ## CPython `xml.etree.ElementTree` serialization -/

/-- CPython `_escape_attrib`: escape an attribute value; the replacements
are applied in the order `&`, `<`, `>`, `"`, CR, LF, TAB. -/
def escAttrib (s : List Char) : List Char :=
  replChar '\t' "&#09;".data
    (replChar '\n' "&#10;".data
      (replChar '\r' "&#13;".data
        (replChar '"' "&quot;".data
          (replChar '>' "&gt;".data
            (replChar '<' "&lt;".data
              (replChar '&' "&amp;".data s))))))

/-- A `<link .../>` element: its attributes in insertion order. -/
structure LinkElem where
  attrs : List (String × String)
deriving DecidableEq

/-- The `linkGrp` root element built by `_generate_xml`: its attributes and
its `link` children, in insertion order. -/
structure LinkGrp where
  attrs : List (String × String)
  links : List LinkElem
deriving DecidableEq

/-- One serialized attribute, double-quoted: ` key="escaped-value"`. -/
def renderAttrDQ (kv : String × String) : List Char :=
  ' ' :: (kv.1.data ++ '=' :: '"' :: (escAttrib kv.2.data ++ ['"']))

/-- All attributes of an element, in order. -/
def renderAttrsDQ (attrs : List (String × String)) : List Char :=
  attrs.flatMap renderAttrDQ

/-- `tostring(root, encoding='unicode')` for the two-level trees built by
`_generate_xml`: empty elements are self-closed with ` />`. -/
def tostringLinkGrp (g : LinkGrp) : List Char :=
  "<linkGrp".data ++ renderAttrsDQ g.attrs ++
    (if g.links.isEmpty then " />".data
     else ('>' :: g.links.flatMap
            (fun l => "<link".data ++ renderAttrsDQ l.attrs ++ " />".data))
          ++ "</linkGrp>".data)

/-- `_rearrange_link_attributes` attribute reordering for one `link`
element: keep exactly the keys `type`, `xtargets`, `status` (in that
order) with their values; any other attribute is dropped
(`attributes.pop` + `link.attrib.clear()`). -/
def reorderAttrs (attrs : List (String × String)) : List (String × String) :=
  ["type", "xtargets", "status"].filterMap
    (fun k => (attrs.lookup k).map (fun v => (k, v)))

/-- Tree-level effect of `_rearrange_link_attributes` before re-serializing. -/
def rearrangeLinkGrp (g : LinkGrp) : LinkGrp :=
  ⟨g.attrs, g.links.map (fun l => ⟨reorderAttrs l.attrs⟩)⟩

/-- `_rearrange_link_attributes(xml_string)`: reorder every `link`'s
attributes, re-serialize, and apply `.replace(' />', '/>')`. -/
def rearrangeLinkAttributes (g : LinkGrp) : List Char :=
  fixSelfClose (tostringLinkGrp (rearrangeLinkGrp g))

/-- `_prettify_and_refine_xml` applied to `tostring(root)`: rearrange link
attributes, collapse inter-tag whitespace, strip, replace `"` by `'`, and
prepend the literal XML declaration. -/
def prettifyAndRefineXml (g : LinkGrp) : List Char :=
  "<?xml version='1.0' encoding='utf-8'?>\n".data ++
    replChar '"' ['\'']
      (pyStrip (collapseTags (rearrangeLinkAttributes g)))

/-! ## The pipeline data -/

/-- One alignment record produced by `_align_sents`
(`{"xtargets": ..., "type": ..., "status": "auto"}`). -/
structure LinkRec where
  xtargets : String
  type : String
  status : String
deriving DecidableEq

/-- The retention filter of `_generate_xml`
(`"643:0" in result["xtargets"] or "641:" in result["xtargets"]`):
a plain substring test. -/
def keepLink (r : LinkRec) : Bool :=
  containsSub "643:0".data r.xtargets.data ||
    containsSub "641:".data r.xtargets.data

/-- The attributes of the `linkGrp` root element built by `_generate_xml`. -/
def rootAttrs : List (String × String) :=
  [("toDoc", "placeholder_toDoc.xml"), ("fromDoc", "placeholder_fromDoc.xml")]

/-- The `link` element built for one (kept) record, attributes in the
insertion order `type`, `xtargets`, `status`. -/
def linkElemOf (r : LinkRec) : LinkElem :=
  ⟨[("type", r.type), ("xtargets", r.xtargets), ("status", r.status)]⟩

/-- The root element built by `_generate_xml` from the filtered results. -/
def linkGrpOfResults (results : List LinkRec) : LinkGrp :=
  ⟨rootAttrs, (results.filter keepLink).map linkElemOf⟩

/-- `_generate_xml(pair_name, alignment_results)`: the file content written
to `{pair_name}.xml`.  (`pair_name` only names the output file.) -/
def generateXml (_pairName : String) (results : List LinkRec) : String :=
  String.mk (prettifyAndRefineXml (linkGrpOfResults results))

/-- The external `Bertalign` aligner as an oracle: source text, target text,
source language, target language ↦ list of (source index group, target
index group) correspondences. -/
def Aligner : Type :=
  String → String → String → String → List (List Nat × List Nat)

/-- `f"{doc_id}:{idx}"`. -/
def fmtIdx (docId : String) (idx : Nat) : String :=
  docId ++ ":" ++ toString idx

/-- One side of an `xtargets` value: `"{id}:{i} {id}:{j} ..."`. -/
def sideTargets (docId : String) (idxs : List Nat) : String :=
  String.intercalate " " (idxs.map (fmtIdx docId))

/-- Map one raw aligner correspondence to a link record. -/
def mkLinkRec (srcId tgtId : String) (al : List Nat × List Nat) : LinkRec :=
  ⟨sideTargets srcId al.1 ++ ";" ++ sideTargets tgtId al.2,
   toString al.1.length ++ "-" ++ toString al.2.length,
   "auto"⟩

/-- `_align_sents(src_id, tgt_id, src_lang, tgt_lang)`.  `texts` is the
id ↦ `processed_text` lookup into `self.texts_data`; when either text is
empty the function returns `None` without consulting the aligner. -/
def alignSents (texts : String → String) (al : Aligner)
    (srcId tgtId srcLang tgtLang : String) : Option (List LinkRec) :=
  if texts srcId = "" ∨ texts tgtId = "" then none
  else some ((al (texts srcId) (texts tgtId) srcLang tgtLang).map
               (mkLinkRec srcId tgtId))

/-- Per-group-pair accumulators: `self.aligned_texts`, `self.failed_pairs`
(global) and the local `alignment_results` list. -/
structure PairState where
  aligned : List (String × String × String)
  failed : List (String × String × String)
  links : List LinkRec
deriving DecidableEq

/-- One iteration of the document cross-product loop in `align_texts`:
a truthy result extends the link list and records a success, a `None` or
empty result records a failure. -/
def stepDocPair (texts : String → String) (al : Aligner)
    (pn l1 l2 : String) (st : PairState) (p : String × String) : PairState :=
  match alignSents texts al p.1 p.2 l1 l2 with
  | some res =>
      if res = [] then ⟨st.aligned, st.failed ++ [(p.1, p.2, pn)], st.links⟩
      else ⟨st.aligned ++ [(p.1, p.2, pn)], st.failed, st.links ++ res⟩
  | none => ⟨st.aligned, st.failed ++ [(p.1, p.2, pn)], st.links⟩

/-- The document cross product of a group pair (`for row1 ... for row2 ...`),
as a list of `(src_id, tgt_id)` pairs. -/
def crossProd (g1 g2 : List String) : List (String × String) :=
  g1.flatMap (fun a => g2.map (fun b => (a, b)))

/-- Run the full cross product of one group pair. -/
def processPair (texts : String → String) (al : Aligner)
    (pn l1 l2 : String) (g1 g2 : List String) (st : PairState) : PairState :=
  (crossProd g1 g2).foldl (stepDocPair texts al pn l1 l2) st

/-- A grouping key `(lang, source_target, spoken_written)`. -/
def GroupKey : Type := String × String × String

instance : DecidableEq GroupKey := by
  unfold GroupKey
  infer_instance

/-- Python tuple comparison `(l1, st1, sw1) < (l2, st2, sw2)`. -/
def ltKey (a b : GroupKey) : Bool :=
  strLt a.1 b.1 ||
    (a.1 == b.1 && (strLt a.2.1 b.2.1 ||
      (a.2.1 == b.2.1 && strLt a.2.2 b.2.2)))

/-- The derived pair name
`EPTIC.{lang1}_{spoken_written1}_{src_target1}.{lang2}_{spoken_written2}_{src_target2}`
(all components lower-cased). -/
def pairName (k1 k2 : GroupKey) : String :=
  "EPTIC." ++ lowerStr k1.1 ++ "_" ++ lowerStr k1.2.2 ++ "_" ++ lowerStr k1.2.1
    ++ "." ++ lowerStr k2.1 ++ "_" ++ lowerStr k2.2.2 ++ "_" ++ lowerStr k2.2.1

/-- The ordered key pairs visited by the two nested `for ... in combinations`
loops under the guard `key1 < key2`. -/
def pairKeys (ks : List GroupKey) : List (GroupKey × GroupKey) :=
  ks.flatMap (fun k1 => (ks.filter (fun k2 => ltKey k1 k2)).map (fun k2 => (k1, k2)))

/-- The same enumeration carried out on full groups (key together with the
ids of the documents in that group), exactly as the nested loops do. -/
def groupPairs (groups : List (GroupKey × List String)) :
    List ((GroupKey × List String) × (GroupKey × List String)) :=
  groups.flatMap
    (fun g1 => (groups.filter (fun g2 => ltKey g1.1 g2.1)).map (fun g2 => (g1, g2)))

/-- Run-level state: the two global accumulator lists plus the ordered
sequence of `(file name, content)` writes performed by `_generate_xml`. -/
structure RunState where
  aligned : List (String × String × String)
  failed : List (String × String × String)
  writes : List (String × String)
deriving DecidableEq

/-- Process one group pair: run its document cross product with a fresh
local link list, then (only if the pre-filter link list is non-empty) write
`{pair_name}.xml`. -/
def processGroupPair (texts : String → String) (al : Aligner)
    (g1 g2 : GroupKey × List String) (st : RunState) : RunState :=
  let pn := pairName g1.1 g2.1
  let ps := processPair texts al pn g1.1.1 g2.1.1 g1.2 g2.2 ⟨st.aligned, st.failed, []⟩
  ⟨ps.aligned, ps.failed,
   if ps.links = [] then st.writes
   else st.writes ++ [(pn, generateXml pn ps.links)]⟩

/-- Process all group pairs of one event. -/
def processEvent (texts : String → String) (al : Aligner)
    (groups : List (GroupKey × List String)) (st : RunState) : RunState :=
  (groupPairs groups).foldl (fun s pr => processGroupPair texts al pr.1 pr.2 s) st

/-- `align_texts`: fold over the events (each event given by its per-key
grouping of document ids). -/
def alignTexts (texts : String → String) (al : Aligner)
    (events : List (List (GroupKey × List String))) : RunState :=
  events.foldl (fun st gs => processEvent texts al gs st) ⟨[], [], []⟩

/-- The final content of file `{pn}.xml` after a sequence of truncating
writes: the last write to that name, if any. -/
def lastWrite (writes : List (String × String)) (pn : String) : Option String :=
  (writes.reverse.find? (fun w => w.1 == pn)).map (fun w => w.2)

/-- `save_alignment_file`: one row per success record whose file exists;
records whose `{pair_name}.xml` is missing are skipped. -/
def exportRows (files : String → Option String)
    (aligned : List (String × String × String)) : List (String × String × String) :=
  aligned.filterMap (fun e => (files e.2.2).map (fun c => (e.1, e.2.1, c)))

/-! ## Spec-side definitions (for comparison with the code) -/

/-- The `doc:idx` tokens of an `xtargets` value: split on `;` into sides,
then on spaces. -/
def xtargetTokens (s : String) : List (List Char) :=
  (splitCh ';' s.data).flatMap (splitCh ' ')

/-- Modelled from the spec: a token "references the literal document id 643
at sentence-index 0 or any sentence of the literal document id 641" when it
is exactly `643:0`, or its document-id part (before the first `:`) is
exactly `641`. -/
def refsSentinelTok (t : List Char) : Bool :=
  t = "643:0".data || (splitCh ':' t).head? == some "641".data

/-- Modelled from the spec: the link's `xtargets` references the sentinel
document ids in the literal sense of the claim. -/
def refsSentinel (r : LinkRec) : Bool :=
  (xtargetTokens r.xtargets).any refsSentinelTok

/-! ## Canonical serialized form (target of the serializer theorems) -/

/-- The serialized (double-quoted) attribute run of one `link` element. -/
def linkAttrsDQ (r : LinkRec) : List Char :=
  renderAttrsDQ (linkElemOf r).attrs

/-- One `link` element as first serialized by `tostring`: `<link ... />`. -/
def chunkDQ (r : LinkRec) : List Char :=
  "<link".data ++ linkAttrsDQ r ++ " />".data

/-- One `link` element after `.replace(' />', '/>')`: `<link .../>`. -/
def chunkFX (r : LinkRec) : List Char :=
  "<link".data ++ linkAttrsDQ r ++ "/>".data

/-- `chunkFX` without its enclosing `<` and `>`. -/
def innerFX (r : LinkRec) : List Char :=
  "link".data ++ linkAttrsDQ r ++ "/".data

/-- `innerFX` after the final `"` → `'` replacement. -/
def innerSQ (r : LinkRec) : List Char :=
  "link type='".data ++ escAttrib r.type.data ++
    "' xtargets='".data ++ escAttrib r.xtargets.data ++
    "' status='".data ++ escAttrib r.status.data ++ "'/".data

/-- A kept link as it appears in the final file:
`<link type='..' xtargets='..' status='..'/>` with escaped, single-quoted
values in the canonical attribute order. -/
def renderLinkSQ (r : LinkRec) : List Char :=
  "<link type='".data ++ escAttrib r.type.data ++
    "' xtargets='".data ++ escAttrib r.xtargets.data ++
    "' status='".data ++ escAttrib r.status.data ++ "'/>".data

/-- The serialized root-element opening, double-quoted, up to (but not
including) the closing quote of the last attribute value. -/
def rootPrefixDQ : List Char :=
  "<linkGrp toDoc=\"placeholder_toDoc.xml\" fromDoc=\"placeholder_fromDoc.xml".data

/-- Declaration plus root-element opening, single-quoted. -/
def xmlHead : List Char :=
  "<?xml version='1.0' encoding='utf-8'?>\n<linkGrp toDoc='placeholder_toDoc.xml' fromDoc='placeholder_fromDoc.xml'".data

/-- The rest of the file: self-closing root if nothing was kept, otherwise
one line per kept link, in order, then the closing tag. -/
def xmlBody (kept : List LinkRec) : List Char :=
  if kept.isEmpty then "/>".data
  else ('>' :: kept.flatMap (fun r => '\n' :: renderLinkSQ r)) ++ "\n</linkGrp>".data

/-- The canonical file content for a list of kept links. -/
def assembleXml (kept : List LinkRec) : String :=
  String.mk (xmlHead ++ xmlBody kept)

/-! ## Concrete demonstration inputs -/

/-- A text table where every document has the (non-empty) text `"x"`. -/
def demoTexts : String → String := fun _ => "x"

/-- An oracle aligner that always reports the single correspondence
sentence 0 ↔ sentence 0. -/
def demoAligner : Aligner := fun _ _ _ _ => [([0], [0])]

/-- An event with an English group holding document `641` and a French
group holding document `645` (ids chosen so the produced link passes the
retention filter). -/
def demoEventA : List (GroupKey × List String) :=
  [(("en", "s", "w"), ["641"]), (("fr", "s", "w"), ["645"])]

/-- A second event with the same two group keys but documents `a` and `b`
(whose link does not pass the retention filter). -/
def demoEventB : List (GroupKey × List String) :=
  [(("en", "s", "w"), ["a"]), (("fr", "s", "w"), ["b"])]

/-- The run over both demo events.  Both events derive the same pair name. -/
def demoRun : RunState := alignTexts demoTexts demoAligner [demoEventA, demoEventB]

/-- The pair name shared by the two demo events. -/
def demoPairName : String := pairName ("en", "s", "w") ("fr", "s", "w")

/-- A one-event run whose only link is removed by the retention filter. -/
def demoRunB : RunState :=
  alignTexts demoTexts demoAligner
    [[(("en", "s", "w"), ["1"]), (("fr", "s", "w"), ["2"])]]

/-! ## Lemmas: `replChar` -/

theorem replChar_append (t : Char) (r a b : List Char) :
    replChar t r (a ++ b) = replChar t r a ++ replChar t r b := by
  induction a with
  | nil => rfl
  | cons c s ih => simp [replChar, ih]

theorem replChar_cons_ne {t c : Char} (hc : c ≠ t) (r s : List Char) :
    replChar t r (c :: s) = c :: replChar t r s := by
  simp [replChar, hc]

theorem mem_replChar {d t : Char} {r s : List Char}
    (h : d ∈ replChar t r s) : d ∈ r ∨ (d ∈ s ∧ d ≠ t) := by
  induction s with
  | nil => simp [replChar] at h
  | cons c s ih =>
    rw [replChar, List.mem_append] at h
    rcases h with h | h
    · by_cases hc : c = t
      · rw [if_pos hc] at h
        exact Or.inl h
      · rw [if_neg hc] at h
        rcases List.mem_singleton.mp h with rfl
        exact Or.inr ⟨List.mem_cons_self _ _, hc⟩
    · rcases ih h with h1 | ⟨h1, h2⟩
      · exact Or.inl h1
      · exact Or.inr ⟨List.mem_cons_of_mem _ h1, h2⟩

theorem not_mem_replChar {d t : Char} {r : List Char} (hr : d ∉ r)
    {s : List Char} (hs : d ∉ s) : d ∉ replChar t r s := by
  intro h
  rcases mem_replChar h with h1 | ⟨h1, _⟩
  · exact hr h1
  · exact hs h1

theorem not_mem_replChar_self {t : Char} {r : List Char} (hr : t ∉ r)
    (s : List Char) : t ∉ replChar t r s := by
  intro h
  rcases mem_replChar h with h1 | ⟨_, h2⟩
  · exact hr h1
  · exact h2 rfl

theorem replChar_eq_self {t : Char} {r s : List Char} (h : t ∉ s) :
    replChar t r s = s := by
  induction s with
  | nil => rfl
  | cons c s ih =>
    simp only [List.mem_cons, not_or] at h
    rw [replChar, if_neg (fun hc => h.1 (hc.symm)), ih h.2]
    rfl

/-! ## Lemmas: `escAttrib` never leaves `>`, `<` or `"` in a value -/

theorem escAttrib_no_gt (s : List Char) : '>' ∉ escAttrib s := by
  unfold escAttrib
  apply not_mem_replChar (by decide)
  apply not_mem_replChar (by decide)
  apply not_mem_replChar (by decide)
  apply not_mem_replChar (by decide)
  exact not_mem_replChar_self (by decide) _

theorem escAttrib_no_lt (s : List Char) : '<' ∉ escAttrib s := by
  unfold escAttrib
  apply not_mem_replChar (by decide)
  apply not_mem_replChar (by decide)
  apply not_mem_replChar (by decide)
  apply not_mem_replChar (by decide)
  apply not_mem_replChar (by decide)
  exact not_mem_replChar_self (by decide) _

theorem escAttrib_no_quot (s : List Char) : '"' ∉ escAttrib s := by
  unfold escAttrib
  apply not_mem_replChar (by decide)
  apply not_mem_replChar (by decide)
  apply not_mem_replChar (by decide)
  exact not_mem_replChar_self (by decide) _

/-! ## Lemmas: substring containment -/

theorem startsWithL_iff (n : List Char) :
    ∀ h : List Char, startsWithL n h = true ↔ ∃ post, h = n ++ post := by
  induction n with
  | nil =>
    intro h
    simp [startsWithL]
  | cons a as ih =>
    intro h
    cases h with
    | nil =>
      simp [startsWithL]
    | cons b bs =>
      simp only [startsWithL, Bool.and_eq_true, decide_eq_true_eq, List.cons_append]
      constructor
      · rintro ⟨rfl, hs⟩
        obtain ⟨post, rfl⟩ := (ih bs).mp hs
        exact ⟨post, rfl⟩
      · rintro ⟨post, heq⟩
        injection heq with h1 h2
        exact ⟨h1.symm, (ih bs).mpr ⟨post, h2⟩⟩

theorem containsSub_iff (n h : List Char) :
    containsSub n h = true ↔ ∃ pre post, h = pre ++ n ++ post := by
  induction h with
  | nil =>
    rw [containsSub, startsWithL_iff]
    constructor
    · rintro ⟨post, hp⟩
      exact ⟨[], post, hp⟩
    · rintro ⟨pre, post, hp⟩
      rcases List.append_eq_nil.mp hp.symm with ⟨h1, h2⟩
      rcases List.append_eq_nil.mp h1 with ⟨h3, h4⟩
      exact ⟨post, by simp [h2, h4]⟩
  | cons c t ih =>
    rw [containsSub, Bool.or_eq_true, startsWithL_iff, ih]
    constructor
    · rintro (⟨post, hp⟩ | ⟨pre, post, hp⟩)
      · exact ⟨[], post, by simpa using hp⟩
      · exact ⟨c :: pre, post, by simp [hp]⟩
    · rintro ⟨pre, post, hp⟩
      cases pre with
      | nil => exact Or.inl ⟨post, by simpa using hp⟩
      | cons p pre =>
        injection hp with h1 h2
        exact Or.inr ⟨pre, post, by simpa using h2⟩

/-! ## Lemmas: `fixSelfClose` -/

theorem fixSelfClose_cons_ne {c : Char} (hc : c ≠ ' ') (E : List Char) :
    fixSelfClose (c :: E) = c :: fixSelfClose E := by
  match E with
  | [] => rfl
  | [d] => rfl
  | d :: e :: E' => rw [fixSelfClose, if_neg (fun h => hc h.1)]

theorem fixSelfClose_space_nslash {d : Char} (hd : d ≠ '/') (E : List Char) :
    fixSelfClose (' ' :: d :: E) = ' ' :: fixSelfClose (d :: E) := by
  match E with
  | [] => rfl
  | e :: E' => rw [fixSelfClose, if_neg (fun h => hd h.2.1)]

theorem fixSelfClose_spsl_ngt {e : Char} (he : e ≠ '>') (E : List Char) :
    fixSelfClose (' ' :: '/' :: e :: E) = ' ' :: fixSelfClose ('/' :: e :: E) := by
  rw [fixSelfClose, if_neg (fun h => he h.2.2)]

theorem fixSelfClose_hit (E : List Char) :
    fixSelfClose (' ' :: '/' :: '>' :: E) = '/' :: '>' :: fixSelfClose E := by
  rw [fixSelfClose, if_pos ⟨rfl, rfl, rfl⟩]

/-- Scanning a `>`-free prefix whose continuation does not begin with `>`
or `/` copies the prefix verbatim. -/
theorem fixSelfClose_append (A : List Char) (hA : '>' ∉ A) (B : List Char)
    (h1 : B.head? ≠ some '>') (h2 : B.head? ≠ some '/') :
    fixSelfClose (A ++ B) = A ++ fixSelfClose B := by
  cases A with
  | nil => simp
  | cons c A' =>
    have hA' : '>' ∉ A' := fun h => hA (by simp [h])
    by_cases hs : c = ' '
    · subst hs
      cases A' with
      | nil =>
        cases B with
        | nil => simp [fixSelfClose]
        | cons d B' =>
          have hd : d ≠ '/' := fun h => h2 (by simp [h])
          simpa using fixSelfClose_space_nslash hd B'
      | cons d A'' =>
        by_cases hd : d = '/'
        · subst hd
          cases A'' with
          | nil =>
            cases B with
            | nil => simp [fixSelfClose]
            | cons e B'' =>
              have he : e ≠ '>' := fun h => h1 (by simp [h])
              show fixSelfClose (' ' :: '/' :: e :: B'') = ' ' :: '/' :: fixSelfClose (e :: B'')
              rw [fixSelfClose_spsl_ngt he B'', fixSelfClose_cons_ne (by decide) (e :: B'')]
          | cons e A3 =>
            have he : e ≠ '>' := fun h => hA (by simp [h])
            show fixSelfClose (' ' :: '/' :: e :: (A3 ++ B))
                = ' ' :: '/' :: e :: (A3 ++ fixSelfClose B)
            rw [fixSelfClose_spsl_ngt he (A3 ++ B),
                fixSelfClose_cons_ne (by decide) (e :: (A3 ++ B))]
            have ih := fixSelfClose_append (e :: A3)
              (fun h => hA (List.mem_cons_of_mem _ (List.mem_cons_of_mem _ h))) B h1 h2
            simpa using ih
        · show fixSelfClose (' ' :: d :: (A'' ++ B)) = ' ' :: d :: (A'' ++ fixSelfClose B)
          rw [fixSelfClose_space_nslash hd (A'' ++ B)]
          have ih := fixSelfClose_append (d :: A'') hA' B h1 h2
          simpa using ih
    · show fixSelfClose (c :: (A' ++ B)) = c :: (A' ++ fixSelfClose B)
      rw [fixSelfClose_cons_ne hs (A' ++ B)]
      rw [fixSelfClose_append A' hA' B h1 h2]
termination_by A.length
decreasing_by
  all_goals subst_vars
  all_goals simp_arith [List.length_cons]

/-! ## Lemmas: `collapseTags` -/

theorem collapseA_skip {A : List Char} (hA : '>' ∉ A) (B : List Char) :
    collapseTags (A ++ B) = A ++ collapseTags B := by
  induction A with
  | nil => rfl
  | cons c A' ih =>
    have hc : c ≠ '>' := fun h => hA (by simp [h])
    have hA' : '>' ∉ A' := fun h => hA (by simp [h])
    show collapseA none (c :: (A' ++ B)) = c :: (A' ++ collapseTags B)
    rw [collapseA, if_neg hc]
    show c :: collapseTags (A' ++ B) = c :: (A' ++ collapseTags B)
    rw [ih hA']

theorem collapseA_gtlt (B : List Char) :
    collapseTags ('>' :: '<' :: B) = '>' :: '\n' :: '<' :: collapseTags B := rfl

theorem collapseA_gtnil : collapseTags ['>'] = ['>'] := rfl

/-! ## Lemmas: `pyStrip` -/

theorem pyStrip_eq (M : List Char) :
    pyStrip ('<' :: (M ++ ['>'])) = '<' :: (M ++ ['>']) := by
  unfold pyStrip
  rw [List.dropWhile_cons]
  simp only [show isPySpace '<' = false from rfl, Bool.false_eq_true, if_false]
  rw [List.reverse_cons, List.reverse_append]
  show List.reverse (List.dropWhile isPySpace ('>' :: (M.reverse ++ ['<']))) = _
  rw [List.dropWhile_cons]
  simp only [show isPySpace '>' = false from rfl, Bool.false_eq_true, if_false]
  simp

/-! ## Lemmas: serialized shapes of one `link` element -/

theorem linkAttrsDQ_eq (r : LinkRec) :
    linkAttrsDQ r
      = " type=\"".data ++ (escAttrib r.type.data ++
          ("\" xtargets=\"".data ++ (escAttrib r.xtargets.data ++
            ("\" status=\"".data ++ (escAttrib r.status.data ++ "\"".data))))) := by
  simp only [linkAttrsDQ, renderAttrsDQ, linkElemOf, renderAttrDQ,
    List.flatMap_cons, List.flatMap_nil, List.append_nil, List.append_assoc,
    List.cons_append, List.nil_append]

theorem linkAttrsDQ_no_gt (r : LinkRec) : '>' ∉ linkAttrsDQ r := by
  rw [linkAttrsDQ_eq]
  intro h
  rcases List.mem_append.mp h with h | h
  · exact absurd h (by decide)
  rcases List.mem_append.mp h with h | h
  · exact escAttrib_no_gt _ h
  rcases List.mem_append.mp h with h | h
  · exact absurd h (by decide)
  rcases List.mem_append.mp h with h | h
  · exact escAttrib_no_gt _ h
  rcases List.mem_append.mp h with h | h
  · exact absurd h (by decide)
  rcases List.mem_append.mp h with h | h
  · exact escAttrib_no_gt _ h
  · exact absurd h (by decide)

theorem chunk_prefix_no_gt (r : LinkRec) : '>' ∉ "<link".data ++ linkAttrsDQ r := by
  intro h
  rcases List.mem_append.mp h with h | h
  · exact absurd h (by decide)
  · exact linkAttrsDQ_no_gt r h

theorem innerFX_no_gt (r : LinkRec) : '>' ∉ innerFX r := by
  intro h
  rcases List.mem_append.mp h with h | h
  · rcases List.mem_append.mp h with h | h
    · exact absurd h (by decide)
    · exact linkAttrsDQ_no_gt r h
  · exact absurd h (by decide)

theorem chunkFX_cons (r : LinkRec) (X : List Char) :
    chunkFX r ++ X = '<' :: (innerFX r ++ ('>' :: X)) := by
  simp only [chunkFX, innerFX, List.append_assoc, List.cons_append,
    List.nil_append]

theorem replChar_linkAttrs (r : LinkRec) :
    replChar '"' ['\''] (linkAttrsDQ r)
      = " type='".data ++ (escAttrib r.type.data ++
          ("' xtargets='".data ++ (escAttrib r.xtargets.data ++
            ("' status='".data ++ (escAttrib r.status.data ++ "'".data))))) := by
  rw [linkAttrsDQ_eq]
  rw [replChar_append, replChar_append, replChar_append, replChar_append,
    replChar_append, replChar_append]
  rw [replChar_eq_self (escAttrib_no_quot _), replChar_eq_self (escAttrib_no_quot _),
    replChar_eq_self (escAttrib_no_quot _)]
  have e1 : replChar '"' ['\''] " type=\"".data = " type='".data := by decide
  have e2 : replChar '"' ['\''] "\" xtargets=\"".data = "' xtargets='".data := by decide
  have e3 : replChar '"' ['\''] "\" status=\"".data = "' status='".data := by decide
  have e4 : replChar '"' ['\''] "\"".data = "'".data := by decide
  rw [e1, e2, e3, e4]

theorem replChar_innerFX (r : LinkRec) :
    replChar '"' ['\''] (innerFX r) = innerSQ r := by
  unfold innerFX innerSQ
  rw [replChar_append, replChar_append, replChar_linkAttrs]
  have e1 : replChar '"' ['\''] "link".data = "link".data := by decide
  have e2 : replChar '"' ['\''] "/".data = "/".data := by decide
  rw [e1, e2]
  simp only [List.append_assoc, List.cons_append, List.nil_append]

theorem renderLinkSQ_cons (r : LinkRec) (X : List Char) :
    '<' :: (innerSQ r ++ ('>' :: X)) = renderLinkSQ r ++ X := by
  simp only [innerSQ, renderLinkSQ, List.append_assoc, List.cons_append,
    List.nil_append]

/-! ## Lemmas: the serializer chain -/

theorem flatMap_map_links (ks : List LinkRec) :
    (ks.map linkElemOf).flatMap
        (fun l => "<link".data ++ renderAttrsDQ l.attrs ++ " />".data)
      = ks.flatMap chunkDQ := by
  induction ks with
  | nil => rfl
  | cons r ks ih =>
    simp only [List.map_cons, List.flatMap_cons, ih]
    rfl

theorem fix_links (ks : List LinkRec) :
    fixSelfClose (ks.flatMap chunkDQ ++ "</linkGrp>".data)
      = ks.flatMap chunkFX ++ "</linkGrp>".data := by
  induction ks with
  | nil =>
    simp only [List.flatMap_nil, List.nil_append]
    decide
  | cons r ks ih =>
    have hshape : (r :: ks).flatMap chunkDQ ++ "</linkGrp>".data
        = ("<link".data ++ linkAttrsDQ r)
            ++ (' ' :: '/' :: '>' :: (ks.flatMap chunkDQ ++ "</linkGrp>".data)) := by
      simp only [List.flatMap_cons, chunkDQ, List.append_assoc, List.cons_append]
      rfl
    rw [hshape,
      fixSelfClose_append _ (chunk_prefix_no_gt r) _ (by simp) (by simp),
      fixSelfClose_hit, ih]
    simp only [List.flatMap_cons, chunkFX, List.append_assoc, List.cons_append]
    rfl

theorem collapse_links (ks : List LinkRec) :
    collapseTags ('>' :: (ks.flatMap chunkFX ++ "</linkGrp>".data))
      = '>' :: (ks.flatMap (fun r => '\n' :: chunkFX r)
          ++ '\n' :: "</linkGrp>".data) := by
  induction ks with
  | nil =>
    simp only [List.flatMap_nil, List.nil_append]
    decide
  | cons r ks ih =>
    have hshape : (r :: ks).flatMap chunkFX ++ "</linkGrp>".data
        = '<' :: (innerFX r ++ ('>' :: (ks.flatMap chunkFX ++ "</linkGrp>".data))) := by
      simp only [List.flatMap_cons, List.append_assoc]
      rw [chunkFX_cons]
    rw [hshape, collapseA_gtlt, collapseA_skip (innerFX_no_gt r), ih]
    simp only [List.flatMap_cons, List.append_assoc, List.cons_append]
    rw [chunkFX_cons]

/-! ## Lemmas: remaining chain steps -/

theorem collapseA_cons_ne {c : Char} (hc : c ≠ '>') (X : List Char) :
    collapseTags (c :: X) = c :: collapseTags X := by
  show collapseA none (c :: X) = c :: collapseTags X
  rw [collapseA, if_neg hc]
  rfl

theorem replChar_cons_self (t : Char) (r s : List Char) :
    replChar t r (t :: s) = r ++ replChar t r s := by
  simp [replChar]

theorem replChar_chunkFX (r : LinkRec) :
    replChar '"' ['\''] (chunkFX r) = renderLinkSQ r := by
  unfold chunkFX
  rw [replChar_append, replChar_append, replChar_linkAttrs]
  have e1 : replChar '"' ['\''] "<link".data = "<link".data := by decide
  have e2 : replChar '"' ['\''] "/>".data = "/>".data := by decide
  rw [e1, e2]
  simp only [renderLinkSQ, List.append_assoc, List.cons_append, List.nil_append]

theorem replChar_lines (ks : List LinkRec) :
    replChar '"' ['\''] (ks.flatMap (fun r => '\n' :: chunkFX r))
      = ks.flatMap (fun r => '\n' :: renderLinkSQ r) := by
  induction ks with
  | nil => rfl
  | cons r ks ih =>
    simp only [List.flatMap_cons]
    rw [replChar_append, ih, replChar_cons_ne (by decide), replChar_chunkFX]

theorem reorder_canon_elem (r : LinkRec) :
    (⟨reorderAttrs (linkElemOf r).attrs⟩ : LinkElem) = linkElemOf r := rfl

theorem rearrange_canon (kept : List LinkRec) :
    rearrangeLinkGrp ⟨rootAttrs, kept.map linkElemOf⟩
      = ⟨rootAttrs, kept.map linkElemOf⟩ := by
  unfold rearrangeLinkGrp
  congr 1
  induction kept with
  | nil => rfl
  | cons r ks ih =>
    simp only [List.map_cons, ih]
    rfl

theorem tostring_shape (r : LinkRec) (ks : List LinkRec) :
    tostringLinkGrp ⟨rootAttrs, (r :: ks).map linkElemOf⟩
      = rootPrefixDQ
          ++ ('"' :: '>' :: ((r :: ks).flatMap chunkDQ ++ "</linkGrp>".data)) := by
  unfold tostringLinkGrp
  rw [show (((r :: ks).map linkElemOf).isEmpty) = false from by simp]
  simp only [Bool.false_eq_true, if_false]
  rw [flatMap_map_links (r :: ks)]
  have hpre : "<linkGrp".data ++ renderAttrsDQ rootAttrs = rootPrefixDQ ++ ['"'] := by
    decide
  rw [hpre]
  simp only [List.append_assoc, List.cons_append, List.singleton_append,
    List.nil_append]

/-- Backbone of the serializer theorems: `_generate_xml` produces exactly
the canonical file content for the retained links, in order. -/
theorem generateXml_eq (p : String) (links : List LinkRec) :
    generateXml p links = assembleXml (links.filter keepLink) := by
  unfold generateXml assembleXml linkGrpOfResults prettifyAndRefineXml
    rearrangeLinkAttributes
  rw [rearrange_canon]
  cases hk : links.filter keepLink with
  | nil => decide
  | cons r ks =>
    rw [tostring_shape r ks]
    rw [fixSelfClose_append rootPrefixDQ (by decide) _ (by simp) (by simp)]
    rw [fixSelfClose_cons_ne (by decide) _]
    rw [fixSelfClose_cons_ne (by decide) _]
    rw [fix_links (r :: ks)]
    rw [collapseA_skip (show ('>' : Char) ∉ rootPrefixDQ from by decide)]
    rw [collapseA_cons_ne (by decide)]
    rw [collapse_links (r :: ks)]
    have hshape : rootPrefixDQ
        ++ ('"' :: '>' :: ((r :: ks).flatMap (fun q => '\n' :: chunkFX q)
            ++ '\n' :: "</linkGrp>".data))
        = '<' :: (("linkGrp toDoc=\"placeholder_toDoc.xml\" fromDoc=\"placeholder_fromDoc.xml".data
            ++ ('"' :: '>' :: ((r :: ks).flatMap (fun q => '\n' :: chunkFX q)
                ++ '\n' :: "</linkGrp".data))) ++ ['>']) := by
      simp only [List.append_assoc, List.cons_append]
      rfl
    rw [hshape, pyStrip_eq, ← hshape]
    rw [replChar_append]
    rw [show replChar '"' ['\''] rootPrefixDQ
        = "<linkGrp toDoc='placeholder_toDoc.xml' fromDoc='placeholder_fromDoc.xml".data
      from by decide]
    rw [replChar_cons_self]
    rw [replChar_cons_ne (by decide)]
    rw [replChar_append]
    rw [replChar_lines]
    rw [replChar_cons_ne (by decide)]
    rw [show replChar '"' ['\''] "</linkGrp>".data = "</linkGrp>".data from by decide]
    apply congrArg String.mk
    rw [show (xmlBody (r :: ks))
        = ('>' :: (r :: ks).flatMap (fun q => '\n' :: renderLinkSQ q))
            ++ "\n</linkGrp>".data from by simp [xmlBody]]
    simp only [xmlHead, List.append_assoc, List.cons_append, List.singleton_append]
    rfl

/-! ## Lemmas: Python comparison of keys -/

theorem listLt_irrefl (a : List Char) : listLt a a = false := by
  induction a with
  | nil => rfl
  | cons c s ih => simp [listLt, ih]

theorem listLt_total (a : List Char) :
    ∀ b : List Char, a ≠ b →
      (listLt a b = true ∧ listLt b a = false) ∨
        (listLt a b = false ∧ listLt b a = true) := by
  induction a with
  | nil =>
    intro b hne
    cases b with
    | nil => exact absurd rfl hne
    | cons d t => exact Or.inl ⟨rfl, rfl⟩
  | cons c s ih =>
    intro b hne
    cases b with
    | nil => exact Or.inr ⟨rfl, rfl⟩
    | cons d t =>
      rcases lt_trichotomy c d with h | h | h
      · have h1 : ¬(d < c) := lt_asymm h
        have h2 : d ≠ c := fun hd => absurd h (by rw [hd]; exact lt_irrefl _)
        exact Or.inl ⟨by simp [listLt, h], by simp [listLt, h1, h2]⟩
      · subst h
        have hst : s ≠ t := fun hs => hne (by rw [hs])
        rcases ih t hst with ⟨hl, hr⟩ | ⟨hl, hr⟩
        · exact Or.inl ⟨by simp [listLt, hl], by simp [listLt, hr]⟩
        · exact Or.inr ⟨by simp [listLt, hl], by simp [listLt, hr]⟩
      · have h1 : ¬(c < d) := lt_asymm h
        have h2 : c ≠ d := fun hd => absurd h (by rw [hd]; exact lt_irrefl _)
        exact Or.inr ⟨by simp [listLt, h1, h2], by simp [listLt, h]⟩

theorem strLt_irrefl (a : String) : strLt a a = false := listLt_irrefl _

theorem strLt_total (a b : String) (h : a ≠ b) :
    (strLt a b = true ∧ strLt b a = false) ∨
      (strLt a b = false ∧ strLt b a = true) := by
  apply listLt_total
  intro hd
  exact h (congrArg String.mk hd)

theorem ltKey_irrefl (k : GroupKey) : ltKey k k = false := by
  obtain ⟨k1, k2, k3⟩ := k
  simp [ltKey, strLt_irrefl]

theorem ltKey_total (a b : GroupKey) (hne : a ≠ b) :
    (ltKey a b = true ∧ ltKey b a = false) ∨
      (ltKey a b = false ∧ ltKey b a = true) := by
  obtain ⟨a1, a2, a3⟩ := a
  obtain ⟨b1, b2, b3⟩ := b
  by_cases h1 : a1 = b1
  · subst h1
    by_cases h2 : a2 = b2
    · subst h2
      have h3 : a3 ≠ b3 := fun hs => hne (by rw [hs])
      rcases strLt_total a3 b3 h3 with ⟨hl, hr⟩ | ⟨hl, hr⟩
      · exact Or.inl ⟨by simp [ltKey, strLt_irrefl, hl],
          by simp [ltKey, strLt_irrefl, hr]⟩
      · exact Or.inr ⟨by simp [ltKey, strLt_irrefl, hl],
          by simp [ltKey, strLt_irrefl, hr]⟩
    · have h2' : b2 ≠ a2 := fun hs => h2 hs.symm
      rcases strLt_total a2 b2 h2 with ⟨hl, hr⟩ | ⟨hl, hr⟩
      · exact Or.inl ⟨by simp [ltKey, strLt_irrefl, hl, h2],
          by simp [ltKey, strLt_irrefl, hr, h2']⟩
      · exact Or.inr ⟨by simp [ltKey, strLt_irrefl, hl, h2],
          by simp [ltKey, strLt_irrefl, hr, h2']⟩
  · have h1' : b1 ≠ a1 := fun hs => h1 hs.symm
    rcases strLt_total a1 b1 h1 with ⟨hl, hr⟩ | ⟨hl, hr⟩
    · exact Or.inl ⟨by simp [ltKey, hl, h1], by simp [ltKey, hr, h1']⟩
    · exact Or.inr ⟨by simp [ltKey, hl, h1], by simp [ltKey, hr, h1']⟩

/-! ## Lemmas: pair enumeration -/

theorem sum_map_add (f g : GroupKey → Nat) (l : List GroupKey) :
    (l.map (fun a => f a + g a)).sum = (l.map f).sum + (l.map g).sum := by
  induction l with
  | nil => rfl
  | cons a l ih =>
    simp only [List.map_cons, List.sum_cons, ih]
    omega

theorem sum_ite_eq_length_filter (p : GroupKey → Bool) (l : List GroupKey) :
    (l.map (fun a => if p a then 1 else 0)).sum = (l.filter p).length := by
  induction l with
  | nil => rfl
  | cons a l ih =>
    by_cases h : p a <;> simp [List.filter_cons, h, ih] <;> omega

theorem filter_split_lt (x : GroupKey) (ks : List GroupKey) (hx : x ∉ ks) :
    (ks.filter (fun k => ltKey x k)).length
      + (ks.filter (fun k => ltKey k x)).length = ks.length := by
  induction ks with
  | nil => rfl
  | cons k ks ih =>
    have hk : k ≠ x := fun h => hx (h ▸ List.mem_cons_self _ _)
    have hx' : x ∉ ks := fun h => hx (List.mem_cons_of_mem _ h)
    rcases ltKey_total x k (fun h => hk (congrArg id h).symm) with ⟨hl, hr⟩ | ⟨hl, hr⟩ <;>
      · simp only [List.filter_cons, hl, hr, if_true, Bool.false_eq_true, if_false,
          List.length_cons]
        have := ih hx'
        omega

theorem pairKeys_length_sum (l : List GroupKey) :
    (pairKeys l).length
      = (l.map (fun k1 => (l.filter (fun k2 => ltKey k1 k2)).length)).sum := by
  simp [pairKeys, List.length_flatMap, Function.comp_def]

theorem pairKeys_cons_length (x : GroupKey) (ks : List GroupKey) (hx : x ∉ ks) :
    (pairKeys (x :: ks)).length = (pairKeys ks).length + ks.length := by
  rw [pairKeys_length_sum, pairKeys_length_sum]
  simp only [List.map_cons, List.sum_cons]
  have hhead : ((x :: ks).filter (fun k2 => ltKey x k2)).length
      = (ks.filter (fun k2 => ltKey x k2)).length := by
    simp [List.filter_cons, ltKey_irrefl]
  have hmap : ks.map (fun k1 => ((x :: ks).filter (fun k2 => ltKey k1 k2)).length)
      = ks.map (fun k1 => (if ltKey k1 x then 1 else 0)
          + (ks.filter (fun k2 => ltKey k1 k2)).length) := by
    apply List.map_congr_left
    intro k1 _
    by_cases h : ltKey k1 x <;> simp [List.filter_cons, h] <;> omega
  rw [hhead, hmap, sum_map_add, sum_ite_eq_length_filter]
  have := filter_split_lt x ks hx
  omega

theorem pairKeys_two_mul_length (ks : List GroupKey) (h : ks.Nodup) :
    2 * (pairKeys ks).length = ks.length * (ks.length - 1) := by
  induction ks with
  | nil => rfl
  | cons x ks ih =>
    rcases List.nodup_cons.mp h with ⟨hx, hnd⟩
    rw [pairKeys_cons_length x ks hx]
    have hih := ih hnd
    have harith : ∀ n : Nat, (n + 1) * (n + 1 - 1) = n * (n - 1) + 2 * n := by
      intro n
      cases n with
      | zero => rfl
      | succ m =>
        simp only [Nat.add_sub_cancel, Nat.succ_sub_one]
        ring
    rw [List.length_cons, harith]
    omega

theorem pairKeys_mem (ks : List GroupKey) (k1 k2 : GroupKey) :
    (k1, k2) ∈ pairKeys ks ↔ k1 ∈ ks ∧ k2 ∈ ks ∧ ltKey k1 k2 = true := by
  constructor
  · intro h
    rcases List.mem_flatMap.mp h with ⟨a, ha, hmem⟩
    rcases List.mem_map.mp hmem with ⟨b, hb, heq⟩
    rcases List.mem_filter.mp hb with ⟨hb1, hb2⟩
    injection heq with e1 e2
    subst e1
    subst e2
    exact ⟨ha, hb1, hb2⟩
  · rintro ⟨h1, h2, h3⟩
    exact List.mem_flatMap.mpr
      ⟨k1, h1, List.mem_map.mpr ⟨k2, List.mem_filter.mpr ⟨h2, h3⟩, rfl⟩⟩

theorem pairKeys_no_self (ks : List GroupKey) (k : GroupKey) :
    (k, k) ∉ pairKeys ks := by
  intro h
  rcases (pairKeys_mem ks k k).mp h with ⟨-, -, h3⟩
  rw [ltKey_irrefl] at h3
  cases h3

theorem pairKeys_nodup (ks : List GroupKey) (h : ks.Nodup) :
    (pairKeys ks).Nodup := by
  rw [pairKeys, List.nodup_flatMap]
  constructor
  · intro x _
    exact ((h.filter _).map (fun b1 b2 e => by injection e))
  · refine h.imp ?_
    intro a b hab z hz1 hz2
    rcases List.mem_map.mp hz1 with ⟨c, -, rfl⟩
    rcases List.mem_map.mp hz2 with ⟨d, -, he⟩
    exact hab (congrArg Prod.fst he).symm

theorem pairKeys_small (ks : List GroupKey) (h : ks.length < 2) :
    pairKeys ks = [] := by
  match ks, h with
  | [], _ => rfl
  | [x], _ => simp [pairKeys, List.filter_cons, ltKey_irrefl]

theorem groupPairs_keys (groups : List (GroupKey × List String)) :
    (groupPairs groups).map (fun pr => (pr.1.1, pr.2.1))
      = pairKeys (groups.map Prod.fst) := by
  simp only [groupPairs, pairKeys, List.map_flatMap, List.flatMap_map,
    List.filter_map, List.map_map, Function.comp_def]

/-! ## Lemmas: the document cross-product loop -/

theorem crossProd_length (g1 g2 : List String) :
    (crossProd g1 g2).length = g1.length * g2.length := by
  induction g1 with
  | nil => simp [crossProd]
  | cons a g1 ih =>
    simp only [crossProd, List.flatMap_cons] at ih ⊢
    rw [List.length_append, ih, List.length_map, List.length_cons]
    ring

theorem crossProd_mem (g1 g2 : List String) (a b : String) :
    (a, b) ∈ crossProd g1 g2 ↔ a ∈ g1 ∧ b ∈ g2 := by
  constructor
  · intro h
    rcases List.mem_flatMap.mp h with ⟨c, hc, hmem⟩
    rcases List.mem_map.mp hmem with ⟨d, hd, heq⟩
    injection heq with e1 e2
    subst e1
    subst e2
    exact ⟨hc, hd⟩
  · rintro ⟨h1, h2⟩
    exact List.mem_flatMap.mpr ⟨a, h1, List.mem_map.mpr ⟨b, h2, rfl⟩⟩

theorem foldl_step_count (texts : String → String) (al : Aligner)
    (pn l1 l2 : String) (ps : List (String × String)) :
    ∀ st : PairState,
      (ps.foldl (stepDocPair texts al pn l1 l2) st).aligned.length
          + (ps.foldl (stepDocPair texts al pn l1 l2) st).failed.length
        = st.aligned.length + st.failed.length + ps.length := by
  induction ps with
  | nil => intro st; simp
  | cons p ps ih =>
    intro st
    rw [List.foldl_cons, ih]
    unfold stepDocPair
    cases alignSents texts al p.1 p.2 l1 l2 with
    | none => simp; omega
    | some res =>
      by_cases hres : res = [] <;> simp [hres] <;> omega

theorem processPair_count (texts : String → String) (al : Aligner)
    (pn l1 l2 : String) (g1 g2 : List String) :
    (processPair texts al pn l1 l2 g1 g2 ⟨[], [], []⟩).aligned.length
        + (processPair texts al pn l1 l2 g1 g2 ⟨[], [], []⟩).failed.length
      = g1.length * g2.length := by
  unfold processPair
  rw [foldl_step_count, crossProd_length]
  simp

theorem foldl_step_links (texts : String → String) (al : Aligner)
    (pn l1 l2 : String) (ps : List (String × String)) :
    ∀ st : PairState,
      (ps.foldl (stepDocPair texts al pn l1 l2) st).links
        = st.links ++ ps.flatMap
            (fun p => (alignSents texts al p.1 p.2 l1 l2).getD []) := by
  induction ps with
  | nil => intro st; simp
  | cons p ps ih =>
    intro st
    rw [List.foldl_cons, ih]
    simp only [List.flatMap_cons]
    unfold stepDocPair
    cases alignSents texts al p.1 p.2 l1 l2 with
    | none => simp
    | some res =>
      by_cases hres : res = [] <;> simp [hres]

theorem foldl_step_failed_mono (texts : String → String) (al : Aligner)
    (pn l1 l2 : String) (ps : List (String × String)) :
    ∀ (st : PairState) (e : String × String × String),
      e ∈ st.failed → e ∈ (ps.foldl (stepDocPair texts al pn l1 l2) st).failed := by
  induction ps with
  | nil => intro st e he; exact he
  | cons p ps ih =>
    intro st e he
    rw [List.foldl_cons]
    apply ih
    unfold stepDocPair
    cases alignSents texts al p.1 p.2 l1 l2 with
    | none => simpa using Or.inl he
    | some res =>
      by_cases hres : res = []
      · simpa [hres] using Or.inl he
      · simpa [hres] using he

theorem foldl_step_failed_mem (texts : String → String) (al : Aligner)
    (pn l1 l2 : String) (ps : List (String × String)) :
    ∀ (st : PairState) (p : String × String), p ∈ ps →
      alignSents texts al p.1 p.2 l1 l2 = none →
      (p.1, p.2, pn) ∈ (ps.foldl (stepDocPair texts al pn l1 l2) st).failed := by
  induction ps with
  | nil => intro st p hp; cases hp
  | cons q ps ih =>
    intro st p hp hnone
    rcases List.mem_cons.mp hp with rfl | hp'
    · rw [List.foldl_cons]
      apply foldl_step_failed_mono
      unfold stepDocPair
      rw [hnone]
      simp
    · rw [List.foldl_cons]
      exact ih _ p hp' hnone

/-! ## Lemmas: the export step -/

theorem exportRows_skips (files : String → Option String)
    (aligned : List (String × String × String)) :
    (exportRows files aligned).length
      = (aligned.filter (fun e => (files e.2.2).isSome)).length := by
  induction aligned with
  | nil => rfl
  | cons e aligned ih =>
    cases hf : files e.2.2 with
    | none =>
      simpa [exportRows, List.filterMap_cons, List.filter_cons, hf] using ih
    | some c =>
      simpa [exportRows, List.filterMap_cons, List.filter_cons, hf] using ih

/-! ## Lemmas: attribute lookup and newline counting -/

theorem lookup_of_nodup_mem {attrs : List (String × String)} {k v : String}
    (hnd : (attrs.map Prod.fst).Nodup) (hm : (k, v) ∈ attrs) :
    attrs.lookup k = some v := by
  induction attrs with
  | nil => cases hm
  | cons a attrs ih =>
    obtain ⟨a1, a2⟩ := a
    rcases List.mem_cons.mp hm with he | hm'
    · injection he with e1 e2
      subst e1
      subst e2
      simp [List.lookup]
    · have hna := List.nodup_cons.mp
        (show (a1 :: attrs.map Prod.fst).Nodup from hnd)
      have hk : (k == a1) = false := beq_eq_false_iff_ne.mpr (by
        intro he
        exact hna.1 (he ▸ List.mem_map.mpr ⟨(k, v), hm', rfl⟩))
      show (match k == a1 with
            | true => some a2
            | false => List.lookup k attrs) = some v
      rw [hk]
      exact ih hna.2 hm'

theorem reorderAttrs_of_mem (t x s : String) (attrs : List (String × String))
    (hnd : (attrs.map Prod.fst).Nodup)
    (ht : ("type", t) ∈ attrs) (hx : ("xtargets", x) ∈ attrs)
    (hs : ("status", s) ∈ attrs) :
    reorderAttrs attrs = [("type", t), ("xtargets", x), ("status", s)] := by
  unfold reorderAttrs
  simp only [List.filterMap_cons, List.filterMap_nil]
  rw [lookup_of_nodup_mem hnd ht, lookup_of_nodup_mem hnd hx,
    lookup_of_nodup_mem hnd hs]
  rfl

theorem escAttrib_no_lf (s : List Char) : '\n' ∉ escAttrib s := by
  unfold escAttrib
  apply not_mem_replChar (by decide)
  exact not_mem_replChar_self (by decide) _

theorem renderLinkSQ_no_lf (r : LinkRec) : '\n' ∉ renderLinkSQ r := by
  unfold renderLinkSQ
  intro h
  rcases List.mem_append.mp h with h | h
  rcases List.mem_append.mp h with h | h
  rcases List.mem_append.mp h with h | h
  rcases List.mem_append.mp h with h | h
  rcases List.mem_append.mp h with h | h
  rcases List.mem_append.mp h with h | h
  · exact absurd h (by decide)
  · exact escAttrib_no_lf _ h
  · exact absurd h (by decide)
  · exact escAttrib_no_lf _ h
  · exact absurd h (by decide)
  · exact escAttrib_no_lf _ h
  · exact absurd h (by decide)

theorem count_lf_lines (ks : List LinkRec) :
    (ks.flatMap (fun r => '\n' :: renderLinkSQ r)).count '\n' = ks.length := by
  induction ks with
  | nil => rfl
  | cons r ks ih =>
    simp only [List.flatMap_cons, List.count_append, List.count_cons, ih]
    rw [List.count_eq_zero.mpr (renderLinkSQ_no_lf r)]
    simp
    omega

theorem generateXml_all_filtered (p : String) (L : List LinkRec)
    (h : L.filter keepLink = []) :
    generateXml p L = String.mk (xmlHead ++ "/>".data) := by
  rw [generateXml_eq, h]
  rfl

/-! ## Claim theorems -/

/-- Claim C1, counterexample: the retention test of `_generate_xml` is a plain
substring test, so the link with `xtargets = "1643:0;2:0"` is retained and
appears in the generated XML even though it references neither document
`643` at sentence 0 nor any sentence of document `641` (its only document
ids are `1643` and `2`).  This refutes "retained if and only if its xtargets
reference the literal document id 643 at sentence-index 0 or any sentence of
the literal document id 641". -/
theorem c1_sentinel_counterexample :
    keepLink ⟨"1643:0;2:0", "1-1", "auto"⟩ = true ∧
    refsSentinel ⟨"1643:0;2:0", "1-1", "auto"⟩ = false ∧
    List.filter keepLink [⟨"1643:0;2:0", "1-1", "auto"⟩]
      = [⟨"1643:0;2:0", "1-1", "auto"⟩] ∧
    containsSub "xtargets='1643:0;2:0'".data
      (generateXml "p" [⟨"1643:0;2:0", "1-1", "auto"⟩]).data = true := by
  refine ⟨by decide, by decide, by decide, by decide⟩

/-- Claim C1, amended: a link is retained if and only if its `xtargets`
string contains the substring `"643:0"` or the substring `"641:"` (plain
substring containment, which also matches longer document ids such as
`1643` or `2641`); the generated XML is exactly the canonical serialization
of the retained sublist, so links failing the substring test never appear. -/
theorem c1_filter_is_substring_test (p : String) (links : List LinkRec) :
    generateXml p links = assembleXml (links.filter keepLink) ∧
    (∀ r : LinkRec, keepLink r = true ↔
      ((∃ pre post, r.xtargets.data = pre ++ "643:0".data ++ post) ∨
       (∃ pre post, r.xtargets.data = pre ++ "641:".data ++ post))) := by
  refine ⟨generateXml_eq p links, fun r => ?_⟩
  rw [keepLink, Bool.or_eq_true, containsSub_iff, containsSub_iff]

/-- Claim C2: within one event the nested loops guarded by `key1 < key2`
visit exactly the ordered key pairs with `k1 < k2` (Python tuple order);
with `N` distinct keys that is each unordered pair exactly once, never a
key with itself, `N*(N-1)/2` pairs in total, and none when `N < 2`.  The
group-level enumeration used by the run is the same enumeration on the
keys of the groups. -/
theorem c2_pair_enumeration (ks : List GroupKey) (h : ks.Nodup) :
    (∀ groups : List (GroupKey × List String),
        (groupPairs groups).map (fun pr => (pr.1.1, pr.2.1))
          = pairKeys (groups.map Prod.fst)) ∧
    (∀ k1 k2, (k1, k2) ∈ pairKeys ks ↔ k1 ∈ ks ∧ k2 ∈ ks ∧ ltKey k1 k2 = true) ∧
    (∀ k, (k, k) ∉ pairKeys ks) ∧
    (pairKeys ks).Nodup ∧
    (pairKeys ks).length = ks.length * (ks.length - 1) / 2 ∧
    (ks.length < 2 → pairKeys ks = []) := by
  refine ⟨groupPairs_keys, pairKeys_mem ks, pairKeys_no_self ks,
    pairKeys_nodup ks h, ?_, pairKeys_small ks⟩
  have h2 := pairKeys_two_mul_length ks h
  omega

/-- Claim C2, witness at three distinct keys. -/
theorem c2_pair_enumeration_witness :
    (pairKeys [("a", "s", "w"), ("b", "s", "w"), ("c", "s", "w")]).length = 3 ∧
    ((("a", "s", "w"), ("b", "s", "w"))
      ∈ pairKeys [("a", "s", "w"), ("b", "s", "w"), ("c", "s", "w")]) := by
  have h := c2_pair_enumeration
    [("a", "s", "w"), ("b", "s", "w"), ("c", "s", "w")] (by decide)
  refine ⟨h.2.2.2.2.1.trans (by decide), ?_⟩
  exact (h.2.1 _ _).mpr ⟨by decide, by decide, by decide⟩

/-- Claim C3: for a group pair with `m` and `n` documents the loop performs
exactly the `m*n` attempts of the full cross product, and every attempt
leaves exactly one record, success or failure (`m*n` in total). -/
theorem c3_cross_product_completeness (texts : String → String) (al : Aligner)
    (pn l1 l2 : String) (g1 g2 : List String) :
    (crossProd g1 g2).length = g1.length * g2.length ∧
    (∀ a b, (a, b) ∈ crossProd g1 g2 ↔ a ∈ g1 ∧ b ∈ g2) ∧
    (processPair texts al pn l1 l2 g1 g2 ⟨[], [], []⟩).aligned.length
        + (processPair texts al pn l1 l2 g1 g2 ⟨[], [], []⟩).failed.length
      = g1.length * g2.length :=
  ⟨crossProd_length g1 g2, crossProd_mem g1 g2,
    processPair_count texts al pn l1 l2 g1 g2⟩

/-- Claim C4: when either document's text is empty, `_align_sents` returns
`None` for every aligner (the external aligner is never consulted), the
pair is recorded among the failed pairs, and the accumulated link list is
exactly the concatenation of the per-pair contributions, the empty-text
pair contributing `(none).getD [] = []`. -/
theorem c4_empty_text_skip (texts : String → String) (al : Aligner)
    (pn l1 l2 : String) (g1 g2 : List String) (d1 d2 : String)
    (h1 : d1 ∈ g1) (h2 : d2 ∈ g2) (he : texts d1 = "" ∨ texts d2 = "") :
    (∀ al' : Aligner, alignSents texts al' d1 d2 l1 l2 = none) ∧
    (d1, d2, pn) ∈ (processPair texts al pn l1 l2 g1 g2 ⟨[], [], []⟩).failed ∧
    (processPair texts al pn l1 l2 g1 g2 ⟨[], [], []⟩).links
      = (crossProd g1 g2).flatMap
          (fun q => (alignSents texts al q.1 q.2 l1 l2).getD []) := by
  have hnone : ∀ al' : Aligner, alignSents texts al' d1 d2 l1 l2 = none := by
    intro al'
    unfold alignSents
    rw [if_pos he]
  refine ⟨hnone, ?_, ?_⟩
  · unfold processPair
    exact foldl_step_failed_mem texts al pn l1 l2 _ _ (d1, d2)
      ((crossProd_mem g1 g2 d1 d2).mpr ⟨h1, h2⟩) (hnone al)
  · unfold processPair
    rw [foldl_step_links]
    simp

/-- Claim C4, witness: document `"1"` has empty text; the pair is failed. -/
theorem c4_empty_text_skip_witness :
    alignSents (fun i => if i = "1" then "" else "x")
        (fun _ _ _ _ => [([0], [0])]) "1" "2" "en" "fr" = none ∧
    ("1", "2", "pn") ∈ (processPair (fun i => if i = "1" then "" else "x")
        (fun _ _ _ _ => [([0], [0])]) "pn" "en" "fr" ["1"] ["2"]
        ⟨[], [], []⟩).failed := by
  have h := c4_empty_text_skip (fun i => if i = "1" then "" else "x")
    (fun _ _ _ _ => [([0], [0])]) "pn" "en" "fr" ["1"] ["2"] "1" "2"
    (by decide) (by decide) (Or.inl (by decide))
  exact ⟨h.1 _, h.2.1⟩

/-- Claim C5: a non-`None` result is exactly the aligner's raw output
mapped, in order, to records whose `type` is
`"{len(source_indices)}-{len(target_indices)}"` and whose `xtargets` is the
space-joined `"{src_id}:{idx}"` entries, a semicolon, then the space-joined
`"{tgt_id}:{idx}"` entries. -/
theorem c5_link_mapping (texts : String → String) (al : Aligner)
    (srcId tgtId srcLang tgtLang : String) (res : List LinkRec)
    (h : alignSents texts al srcId tgtId srcLang tgtLang = some res) :
    res = (al (texts srcId) (texts tgtId) srcLang tgtLang).map
      (fun g => ⟨String.intercalate " "
            (g.1.map (fun i => srcId ++ ":" ++ toString i))
          ++ ";" ++ String.intercalate " "
            (g.2.map (fun i => tgtId ++ ":" ++ toString i)),
        toString g.1.length ++ "-" ++ toString g.2.length,
        "auto"⟩) := by
  unfold alignSents at h
  by_cases hc : texts srcId = "" ∨ texts tgtId = ""
  · rw [if_pos hc] at h
    cases h
  · rw [if_neg hc] at h
    injection h with h'
    exact h'.symm

/-- Claim C5, witness: one raw correspondence `([0, 1], [0])`. -/
theorem c5_link_mapping_witness :
    alignSents (fun _ => "x") (fun _ _ _ _ => [([0, 1], [0])]) "A" "B" "en" "fr"
      = some [⟨"A:0 A:1;B:0", "2-1", "auto"⟩] ∧
    ([⟨"A:0 A:1;B:0", "2-1", "auto"⟩] : List LinkRec)
      = ([([0, 1], [0])] : List (List Nat × List Nat)).map
          (fun g => ⟨String.intercalate " "
                (g.1.map (fun i => "A" ++ ":" ++ toString i))
              ++ ";" ++ String.intercalate " "
                (g.2.map (fun i => "B" ++ ":" ++ toString i)),
            toString g.1.length ++ "-" ++ toString g.2.length,
            "auto"⟩) := by
  refine ⟨by decide, ?_⟩
  exact c5_link_mapping (fun _ => "x") (fun _ _ _ _ => [([0, 1], [0])])
    "A" "B" "en" "fr" _ (by decide)

/-- Claim C6: serialization is a pure function of `(pair_name, links)` —
the produced bytes are exactly the canonical content determined by the
retained links (so two calls on the same input are byte-identical), and
the retained links keep their discovery order (the filtered list is a
sublist, rendered in order by `xmlBody`). -/
theorem c6_idempotent_serialization (p : String) (links : List LinkRec) :
    generateXml p links = String.mk (xmlHead ++ xmlBody (links.filter keepLink)) ∧
    (links.filter keepLink).Sublist links :=
  ⟨generateXml_eq p links, List.filter_sublist links⟩

/-- Claim C7: `_rearrange_link_attributes` puts every link's attributes in
the order (type, xtargets, status) whatever order they arrive in;
records produced by `_align_sents` always carry status `auto`; the output
starts with the literal single-quoted XML declaration followed by the
single-quoted root tag; every retained link appears as the single-quoted
canonical `<link .../>` rendering; and with `n` retained links the output
holds exactly `n + 2` newlines (one after the declaration, one before each
link, one before the closing tag — all inter-tag whitespace). -/
theorem c7_canonical_serialization :
    (∀ (t x s : String) (attrs : List (String × String)),
        (attrs.map Prod.fst).Nodup →
        ("type", t) ∈ attrs → ("xtargets", x) ∈ attrs → ("status", s) ∈ attrs →
        reorderAttrs attrs = [("type", t), ("xtargets", x), ("status", s)]) ∧
    (∀ (texts : String → String) (al : Aligner) (a b l1 l2 : String)
        (res : List LinkRec),
        alignSents texts al a b l1 l2 = some res → ∀ r ∈ res, r.status = "auto") ∧
    (∀ (p : String) (links : List LinkRec),
        (generateXml p links).data
          = "<?xml version='1.0' encoding='utf-8'?>\n".data
              ++ ("<linkGrp toDoc='placeholder_toDoc.xml' fromDoc='placeholder_fromDoc.xml'".data
                  ++ xmlBody (links.filter keepLink))) ∧
    (∀ (p : String) (links : List LinkRec) (r : LinkRec),
        r ∈ links.filter keepLink →
        ∃ pre post, (generateXml p links).data = pre ++ renderLinkSQ r ++ post) ∧
    (∀ (p : String) (links : List LinkRec), links.filter keepLink ≠ [] →
        (generateXml p links).data.count '\n'
          = (links.filter keepLink).length + 2) := by
  refine ⟨reorderAttrs_of_mem, ?_, ?_, ?_, ?_⟩
  · intro texts al a b l1 l2 res h r hr
    unfold alignSents at h
    by_cases hc : texts a = "" ∨ texts b = ""
    · rw [if_pos hc] at h
      cases h
    · rw [if_neg hc] at h
      injection h with h'
      rcases List.mem_map.mp (h' ▸ hr) with ⟨g, -, rfl⟩
      rfl
  · intro p links
    rw [generateXml_eq]
    show xmlHead ++ xmlBody (links.filter keepLink) = _
    rw [show xmlHead = "<?xml version='1.0' encoding='utf-8'?>\n".data
        ++ "<linkGrp toDoc='placeholder_toDoc.xml' fromDoc='placeholder_fromDoc.xml'".data
      from by decide]
    rw [List.append_assoc]
  · intro p links r hr
    rw [generateXml_eq]
    rcases List.append_of_mem hr with ⟨l1, l2, hsplit⟩
    refine ⟨xmlHead ++ '>' :: (l1.flatMap (fun q => '\n' :: renderLinkSQ q)) ++ ['\n'],
      l2.flatMap (fun q => '\n' :: renderLinkSQ q) ++ "\n</linkGrp>".data, ?_⟩
    show xmlHead ++ xmlBody (links.filter keepLink) = _
    rw [hsplit]
    rw [show xmlBody (l1 ++ r :: l2)
        = ('>' :: (l1 ++ r :: l2).flatMap (fun q => '\n' :: renderLinkSQ q))
            ++ "\n</linkGrp>".data from by simp [xmlBody]]
    simp only [List.flatMap_append, List.flatMap_cons, List.append_assoc,
      List.cons_append, List.singleton_append, List.nil_append]
  · intro p links hne
    rw [generateXml_eq]
    show (xmlHead ++ xmlBody (links.filter keepLink)).count '\n' = _
    cases hk : links.filter keepLink with
    | nil => exact absurd hk hne
    | cons r ks =>
      rw [List.count_append]
      rw [show xmlBody (r :: ks)
          = ('>' :: (r :: ks).flatMap (fun q => '\n' :: renderLinkSQ q))
              ++ "\n</linkGrp>".data from by simp [xmlBody]]
      rw [List.count_append, List.count_cons]
      rw [count_lf_lines (r :: ks)]
      rw [show (xmlHead.count '\n') = 1 from by decide]
      rw [show (List.count '\n' "\n</linkGrp>".data) = 1 from by decide]
      simp
      omega

/-- Claim C7, witness: a permuted attribute list is put in canonical order,
and a one-link file holds exactly three newlines. -/
theorem c7_canonical_serialization_witness :
    reorderAttrs [("status", "auto"), ("xtargets", "X"), ("type", "1-1")]
      = [("type", "1-1"), ("xtargets", "X"), ("status", "auto")] ∧
    (generateXml "p" [⟨"641:0;2:0", "1-1", "auto"⟩]).data.count '\n' = 3 := by
  have h := c7_canonical_serialization
  refine ⟨h.1 "1-1" "X" "auto" _ (by decide) (by decide) (by decide) (by decide), ?_⟩
  have h5 := h.2.2.2.2 "p" [⟨"641:0;2:0", "1-1", "auto"⟩] (by decide)
  exact h5.trans (by decide)

/-- Claim C8, counterexample: in the one-event demo run the only produced
link (`"1:0;2:0"`) is removed by the retention filter, yet `_generate_xml`
still writes the file — the claim "if every accumulated link of a
group-pair is removed by the filter, no XML file exists for that pair_name"
is false on the code (the file exists, holding only the empty `linkGrp`
element; the probe `"<link "` matches a serialized link element but not
the `linkGrp` root). -/
theorem c8_counterexample :
    List.filter keepLink [⟨"1:0;2:0", "1-1", "auto"⟩] = [] ∧
    demoRunB.writes.length = 1 ∧
    demoRunB.writes.map Prod.fst = [demoPairName] ∧
    containsSub "<link ".data ((demoRunB.writes.headD ("", "")).2).data = false := by
  refine ⟨by decide, by decide, by decide, by decide⟩

/-- Claim C8, amended: a group-pair's file is written if and only if its
pre-filter accumulated link list is non-empty (when every link is then
removed by the filter, the file still exists and holds only the
self-closed empty `linkGrp` element); the export step emits exactly one row
per success record whose file exists, silently skipping the rest. -/
theorem c8_write_iff_prefilter_nonempty :
    (∀ (texts : String → String) (al : Aligner) (g1 g2 : GroupKey × List String)
        (st : RunState),
        (processGroupPair texts al g1 g2 st).writes
          = (if (processPair texts al (pairName g1.1 g2.1) g1.1.1 g2.1.1
                  g1.2 g2.2 ⟨st.aligned, st.failed, []⟩).links = []
             then st.writes
             else st.writes ++ [(pairName g1.1 g2.1,
                 generateXml (pairName g1.1 g2.1)
                   (processPair texts al (pairName g1.1 g2.1) g1.1.1 g2.1.1
                     g1.2 g2.2 ⟨st.aligned, st.failed, []⟩).links)])) ∧
    (∀ (p : String) (L : List LinkRec), L.filter keepLink = [] →
        generateXml p L = String.mk (xmlHead ++ "/>".data)) ∧
    (∀ (files : String → Option String)
        (aligned : List (String × String × String)),
        (exportRows files aligned).length
          = (aligned.filter (fun e => (files e.2.2).isSome)).length) :=
  ⟨fun _ _ _ _ _ => rfl, generateXml_all_filtered, exportRows_skips⟩

/-- Claim C8, witness: the fully-filtered list yields the empty-root file. -/
theorem c8_write_iff_prefilter_nonempty_witness :
    generateXml "p" [⟨"1:0;2:0", "1-1", "auto"⟩]
      = String.mk (xmlHead ++ "/>".data) :=
  c8_write_iff_prefilter_nonempty.2.1 "p" _ (by decide)

/-- Claim C9: run of the code at a two-event input in which both events
derive the same pair name.  The success record for documents `641`/`645`
exists, the file name is written twice, the first write holds the
`641:0` link, and the final file content (last write wins, since
`_generate_xml` opens the file with mode `w` and a fresh root despite its
“Generate or append” docstring) has lost it: append-consistency and
write-once-per-pair fail. -/
theorem c9_pair_name_overwrite :
    ("641", "645", demoPairName) ∈ demoRun.aligned ∧
    demoRun.writes.map Prod.fst = [demoPairName, demoPairName] ∧
    containsSub "641:0".data ((demoRun.writes.headD ("", "")).2).data = true ∧
    containsSub "641:0".data
      ((lastWrite demoRun.writes demoPairName).getD "").data = false := by
  refine ⟨by decide, by decide, by decide, by decide⟩

/-- Claim C10: the canonicalized output never contains a double-quote
character: the `"` → `'` replacement is global over the whole serialized
string (first conjunct, for every string), hence the full pipeline output —
for arbitrary attribute data, document ids and xtargets values included —
is double-quote-free. -/
theorem c10_no_double_quotes :
    (∀ s : List Char, '"' ∉ replChar '"' ['\''] s) ∧
    (∀ g : LinkGrp, '"' ∉ prettifyAndRefineXml g) ∧
    (∀ (p : String) (links : List LinkRec), '"' ∉ (generateXml p links).data) := by
  have h1 : ∀ s : List Char, '"' ∉ replChar '"' ['\''] s := fun s =>
    not_mem_replChar_self (by decide) s
  have h2 : ∀ g : LinkGrp, '"' ∉ prettifyAndRefineXml g := by
    intro g h
    unfold prettifyAndRefineXml at h
    rcases List.mem_append.mp h with h | h
    · exact absurd h (by decide)
    · exact h1 _ h
  exact ⟨h1, h2, fun p links h => h2 _ h⟩
